import Mathlib

/-!
Verification of the annotation-grouping and span-highlighting core of the
ICD-10 entity-linking viewer (source: src/elinker/viewer.py).

Texts are modelled as lists of characters; Python slices become drop/take;
dictionaries with optional keys become structures of Option fields read
through getD with the defaults the source uses.  The active-code set is
modelled as a list of strings used only through membership and emptiness.
-/

namespace Elinker

/-- One raw JSON entry of a note (a span tagged with a code).  Fields are
optional because the source reads them with dict.get; beginPos and endPos
stand for the begin and end keys of the source dict. -/
structure Ann where
  code : Option String
  codeSystem : Option String
  descr : Option String
  beginPos : Option Int
  endPos : Option Int
deriving DecidableEq

/-- One piece of rendered output: a run of characters, highlighted or not.
Models one append call on the rich Text object in highlight logic. -/
structure Segment where
  content : List Char
  highlighted : Bool
deriving DecidableEq

/-- A validated span kept for highlighting, as built at viewer.py:327. -/
structure Span where
  sb : Nat
  se : Nat
  scode : Option String
deriving DecidableEq

/-- The membership test at viewer.py:321: a missing code key gives None,
which is never a member of the set of selected code strings. -/
def codeActive (a : Ann) (activeCodes : List String) : Bool :=
  match a.code with
  | some c => activeCodes.contains c
  | none => false

/-- Python slice text[a:b] for list-of-char texts. -/
def slice (text : List Char) (a b : Nat) : List Char :=
  (text.drop a).take (b - a)

/-- One iteration of the span-collection loop (viewer.py:320-329): keep a
selected code whose offsets satisfy 0 <= begin < len(text) and
begin < end <= len(text); anything else yields no span. -/
def spanOf (text : List Char) (activeCodes : List String) (a : Ann) :
    Option Span :=
  if codeActive a activeCodes then
    if 0 ≤ a.beginPos.getD 0 ∧ a.beginPos.getD 0 < (text.length : Int) ∧
        a.beginPos.getD 0 < a.endPos.getD 0 ∧
        a.endPos.getD 0 ≤ (text.length : Int) then
      some { sb := (a.beginPos.getD 0).toNat, se := (a.endPos.getD 0).toNat
             scode := a.code }
    else none
  else none

/-- The span-collection loop of viewer.py:319-329 as a whole. -/
def collectSpans (text : List Char) (anns : List Ann)
    (activeCodes : List String) : List Span :=
  anns.filterMap (spanOf text activeCodes)

/-- Sort key of viewer.py:332: spans ordered by begin offset. -/
def spanLE (x y : Span) : Prop := x.sb ≤ y.sb

instance : DecidableRel spanLE := fun x y =>
  inferInstanceAs (Decidable (x.sb ≤ y.sb))

instance : IsTotal Span spanLE := ⟨fun x y => Nat.le_total x.sb y.sb⟩

instance : IsTrans Span spanLE := ⟨fun _ _ _ => Nat.le_trans⟩

/-- The stable sort at viewer.py:332 (Python list.sort is stable; insertion
sort with a non-strict key comparison realises the same ordering). -/
def sortSpans (l : List Span) : List Span :=
  List.insertionSort spanLE l

/-- The emission walk of viewer.py:335-353: gap segment when the next span
starts past lastPos, then the highlighted segment, lastPos moves to the
span end; after the loop the remaining tail text[lastPos:] if any. -/
def walk (text : List Char) : List Span → Nat → List Segment
  | [], lastPos =>
      if lastPos < text.length then
        [{ content := text.drop lastPos, highlighted := false }]
      else []
  | s :: rest, lastPos =>
      (if lastPos < s.sb then
        [{ content := slice text lastPos s.sb, highlighted := false }]
      else []) ++
        { content := slice text s.sb s.se, highlighted := true }
          :: walk text rest s.se

/-- highlight logic of viewer.py:305-353 as a whole. -/
def highlightText (text : List Char) (anns : List Ann)
    (activeCodes : List String) : List Segment :=
  walk text (sortSpans (collectSpans text anns activeCodes)) 0

/-- The per-note update of viewer.py:293-301: with no selected codes the
plain text is shown as a single unhighlighted segment and the span logic
is never entered; otherwise the highlighted segmentation is produced. -/
def render (text : List Char) (anns : List Ann)
    (activeCodes : List String) : List Segment :=
  if activeCodes.isEmpty then [{ content := text, highlighted := false }]
  else highlightText text anns activeCodes

/-- One raw JSON note record (viewer.py:166-175 reads its keys with
dict.get and the defaults modelled here at the use sites). -/
structure Note where
  note_id : Option Int
  category : Option String
  descr : Option String
  text : Option (List Char)
  anns : Option (List Ann)
deriving DecidableEq

/-- Processed note with character offset tracking (class NoteData,
viewer.py:35-53): end_offset = start_offset + len(text). -/
structure NoteData where
  note_id : Int
  category : String
  descr : String
  text : List Char
  anns : List Ann
  start_offset : Nat
  end_offset : Nat
deriving DecidableEq

/-- The NoteData construction of viewer.py:168-175, with the defaults the
source passes to dict.get (note_id defaults to the note index, category to
the string Unknown, the rest to empty string or empty list). -/
def mkNoteData (idx : Nat) (off : Nat) (n : Note) : NoteData :=
  let t := n.text.getD []
  { note_id := n.note_id.getD (idx : Int)
    category := n.category.getD "Unknown"
    descr := n.descr.getD ""
    text := t
    anns := n.anns.getD []
    start_offset := off
    end_offset := off + t.length }

/-- The note pass of the processing loop (viewer.py:164-177): the running
offset starts at 0 and each note starts where the previous one ended. -/
def buildNotes : List Note → Nat → Nat → List NoteData
  | [], _, _ => []
  | n :: rest, idx, off =>
      let nd := mkNoteData idx off n
      nd :: buildNotes rest (idx + 1) nd.end_offset

/-- Group of all instances of one code (class AnnotationGroup,
viewer.py:13-29): metadata is seeded once, instances accumulate. -/
structure Group where
  code : String
  codeSystem : String
  descr : String
  instances : List (Nat × Ann)
deriving DecidableEq

/-- The count property of viewer.py:26-29. -/
def Group.count (g : Group) : Nat := g.instances.length

/-- One step of the grouping loop (viewer.py:180-190): a previously unseen
code (read with default empty string) opens a group seeded from this entry,
then the (note index, entry) pair is appended to that code group. -/
def addInst (gs : List Group) (noteIdx : Nat) (a : Ann) : List Group :=
  if gs.any (fun g => g.code = a.code.getD "") then
    gs.map fun g =>
      if g.code = a.code.getD "" then
        { g with instances := g.instances ++ [(noteIdx, a)] }
      else g
  else
    gs ++ [{ code := a.code.getD ""
             codeSystem := a.codeSystem.getD ""
             descr := a.descr.getD ""
             instances := [(noteIdx, a)] }]

/-- All annotation entries of a list of notes starting at note index i,
each tagged with its note index, in document encounter order: the order
the nested loops of viewer.py:166-190 visit them in. -/
def docAnnsFrom : Nat → List Note → List (Nat × Ann)
  | _, [] => []
  | i, n :: rest =>
      ((n.anns.getD []).map fun a => (i, a)) ++ docAnnsFrom (i + 1) rest

/-- All annotation entries of a document in encounter order. -/
def docAnns (notes : List Note) : List (Nat × Ann) :=
  docAnnsFrom 0 notes

/-- The grouping pass of viewer.py:180-190: fold the grouping step over all
entries in document order, starting from no groups (groups live in an
insertion-ordered dict in the source; an insertion-ordered list here). -/
def buildGroups (notes : List Note) : List Group :=
  (docAnns notes).foldl (fun gs p => addInst gs p.1 p.2) []

/-- Sort key of viewer.py:193: groups ordered by code string. -/
def groupLE (g1 g2 : Group) : Prop := g1.code ≤ g2.code

instance : DecidableRel groupLE := fun g1 g2 =>
  inferInstanceAs (Decidable (g1.code ≤ g2.code))

instance : IsTotal Group groupLE := ⟨fun g1 g2 => le_total g1.code g2.code⟩

instance : IsTrans Group groupLE := ⟨fun _ _ _ => le_trans⟩

/-- The whole of _process_data (viewer.py:161-193): note records with
offsets, plus the code groups sorted by code. -/
def processData (notes : List Note) : List NoteData × List Group :=
  (buildNotes notes 0 0, List.insertionSort groupLE (buildGroups notes))

/-- A document: the notes key is read with default at viewer.py:166. -/
structure Document where
  notes : Option (List Note)
deriving DecidableEq

/-- The indexer entry point over a raw document. -/
def build (d : Document) : List NoteData × List Group :=
  processData (d.notes.getD [])

/-! Auxiliary notions used to state and prove the claims. -/

/-- Concatenation of the rendered segment contents, in order. -/
def concatSegs (segs : List Segment) : List Char :=
  segs.flatMap Segment.content

/-- Two spans do not overlap: one ends before the other starts. -/
def disjSpans (s t : Span) : Prop :=
  s.se ≤ t.sb ∨ t.se ≤ s.sb

instance : DecidableRel disjSpans := fun s t =>
  inferInstanceAs (Decidable (s.se ≤ t.sb ∨ t.se ≤ s.sb))

/-- The spans form a valid left-to-right chain starting at position pos in
a text of the given length: each span starts no earlier than the current
position, is non-degenerate and stays inside the text. -/
def chainFrom (len : Nat) : Nat → List Span → Prop
  | _, [] => True
  | pos, s :: rest =>
      pos ≤ s.sb ∧ s.sb < s.se ∧ s.se ≤ len ∧ chainFrom len s.se rest

/-- The processed notes occupy contiguous offset ranges of the combined
text starting at the given position. -/
def contiguousFrom : Nat → List NoteData → Prop
  | _, [] => True
  | pos, nd :: rest =>
      nd.start_offset = pos ∧
      nd.end_offset = nd.start_offset + nd.text.length ∧
      contiguousFrom nd.end_offset rest

/-- The offset conditions under which the spec says a span is dropped:
begin >= end, begin < 0, begin >= len(text), or end > len(text), read with
the same defaults the highlighter uses. -/
def badPos (text : List Char) (a : Ann) : Bool :=
  decide (a.endPos.getD 0 ≤ a.beginPos.getD 0) ||
    decide (a.beginPos.getD 0 < 0) ||
    decide ((text.length : Int) ≤ a.beginPos.getD 0) ||
    decide ((text.length : Int) < a.endPos.getD 0)

/-- A note with every missing field replaced by the exact default the
source substitutes for it at viewer.py:168-175 (note index for note_id,
the string Unknown for category, empty string or list for the rest). -/
def fillNote (idx : Nat) (n : Note) : Note :=
  { note_id := some (n.note_id.getD (idx : Int))
    category := some (n.category.getD "Unknown")
    descr := some (n.descr.getD "")
    text := some (n.text.getD [])
    anns := some (n.anns.getD []) }

/-- Field filling applied to a list of notes starting at note index i. -/
def fillNotesFrom : Nat → List Note → List Note
  | _, [] => []
  | i, n :: rest => fillNote i n :: fillNotesFrom (i + 1) rest

/-- An annotation entry with each missing string field replaced by the
empty string, the default the grouping loop reads it with
(viewer.py:181-187); the offsets are left untouched. -/
def fillAnnStrings (a : Ann) : Ann :=
  { code := some (a.code.getD "")
    codeSystem := some (a.codeSystem.getD "")
    descr := some (a.descr.getD "")
    beginPos := a.beginPos
    endPos := a.endPos }

/-- String-field filling applied to every annotation entry of a note. -/
def fillAnnsNote (n : Note) : Note :=
  { n with anns := some ((n.anns.getD []).map fillAnnStrings) }

/-- String-field filling applied to the annotation list a processed note
carries. -/
def fillNoteDataAnns (nd : NoteData) : NoteData :=
  { nd with anns := nd.anns.map fillAnnStrings }

/-- String-field filling applied to the entries stored in a group. -/
def fillGroupInsts (g : Group) : Group :=
  { g with instances := g.instances.map fun p => (p.1, fillAnnStrings p.2) }

/-- An annotation entry with each missing offset replaced by 0, the
default the highlighter reads it with (viewer.py:322-323); the string
fields are left untouched. -/
def fillAnnOffsets (a : Ann) : Ann :=
  { a with beginPos := some (a.beginPos.getD 0)
           endPos := some (a.endPos.getD 0) }

/-! Concrete inputs used in counterexamples and witnesses. -/

/-- The text of the scenario in the spec (25 characters). -/
def c6text : List Char := "The patient has diabetes.".toList

/-- The scenario entry exactly as the spec states it: begin 17, end 25. -/
def c6ann : Ann :=
  ⟨some "E11.9", some "ICD-10-CM", some "Type 2 diabetes", some 17, some 25⟩

/-- The scenario entry with the offsets that actually cover the word
diabetes in the 25-character text: begin 16, end 24. -/
def c6annFixed : Ann :=
  ⟨some "E11.9", some "ICD-10-CM", some "Type 2 diabetes", some 16, some 24⟩

/-- A six-character text for the overlap examples. -/
def ovText : List Char := "abcdef".toList

/-- Span covering characters 0 to 4 of ovText. -/
def ovAnn1 : Ann := ⟨some "A", none, none, some 0, some 4⟩

/-- Span covering characters 3 to 6 of ovText: overlaps ovAnn1. -/
def ovAnn2 : Ann := ⟨some "A", none, none, some 3, some 6⟩

/-- Two disjoint spans over ovText, for witnesses. -/
def w1ann1 : Ann := ⟨some "A", none, none, some 0, some 2⟩

/-- Second disjoint span over ovText, for witnesses. -/
def w1ann2 : Ann := ⟨some "A", none, none, some 3, some 5⟩

/-- A note record with every field missing. -/
def emptyNote : Note := ⟨none, none, none, none, none⟩

/-- The code key of a tagged entry: the code string, defaulting to the
empty string, exactly as the grouping loop reads it (viewer.py:181). -/
def keyOf (p : Nat × Ann) : String := p.2.code.getD ""

/-- First witness entry: code A00 in note 0. -/
def w2a1 : Ann := ⟨some "A00", some "ICD-10-CM", some "first", some 0, some 1⟩

/-- Second witness entry: code A00 again, in note 1, with different
metadata. -/
def w2a2 : Ann := ⟨some "A00", some "OTHER", some "second", some 1, some 3⟩

/-- Third witness entry: no code key at all. -/
def w2a3 : Ann := ⟨none, none, none, some 0, some 2⟩

/-- A two-note document with a shared code across notes, for witnesses. -/
def w2doc : Document :=
  ⟨some [⟨some 7, some "Discharge", some "d1", some "ab".toList, some [w2a1]⟩,
         ⟨some 9, some "Radiology", some "d2", some "cdef".toList,
           some [w2a2, w2a3]⟩]⟩

/-- The group the indexer builds for code A00 of w2doc. -/
def w2gA : Group := ⟨"A00", "ICD-10-CM", "first", [(0, w2a1), (1, w2a2)]⟩

/-! Helper lemmas about slices and the emission walk. -/

theorem slice_append (t : List Char) {a b c : Nat} (hab : a ≤ b) (hbc : b ≤ c) :
    slice t a b ++ slice t b c = slice t a c := by
  unfold slice
  have hd : t.drop b = (t.drop a).drop (b - a) := by
    rw [List.drop_drop]
    congr 1
    omega
  rw [hd]
  have : c - a = (b - a) + (c - b) := by omega
  rw [this, List.take_add]

theorem slice_length (t : List Char) (a : Nat) :
    slice t a t.length = t.drop a := by
  unfold slice
  exact List.take_of_length_le (by rw [List.length_drop])

theorem concat_walk (t : List Char) :
    ∀ (spans : List Span) (pos : Nat), chainFrom t.length pos spans →
      concatSegs (walk t spans pos) = t.drop pos := by
  intro spans
  induction spans with
  | nil =>
      intro pos _
      by_cases h : pos < t.length
      · simp [walk, concatSegs, h]
      · simp only [walk, if_neg h]
        rw [List.drop_eq_nil_of_le (by omega)]
        rfl
  | cons s rest ih =>
      intro pos h
      obtain ⟨h1, h2, h3, h4⟩ := h
      have IH := ih s.se h4
      simp only [walk, concatSegs, List.flatMap_append, List.flatMap_cons]
      simp only [concatSegs] at IH
      rw [IH]
      rw [← slice_length t s.se]
      rw [slice_append t (le_of_lt h2) h3]
      by_cases hgap : pos < s.sb
      · simp only [if_pos hgap, List.flatMap_cons, List.flatMap_nil,
          List.append_nil]
        rw [slice_append t (le_of_lt hgap) (by omega)]
        rw [slice_length]
      · have : pos = s.sb := by omega
        subst this
        simp only [if_neg hgap, List.flatMap_nil, List.nil_append]
        rw [slice_length]

theorem length_walk (t : List Char) :
    ∀ (spans : List Span) (pos : Nat),
      (walk t spans pos).length ≤ 2 * spans.length + 1 := by
  intro spans
  induction spans with
  | nil =>
      intro pos
      by_cases h : pos < t.length <;> simp [walk, h]
  | cons s rest ih =>
      intro pos
      have IH := ih s.se
      by_cases h : pos < s.sb <;> simp [walk, h] <;> omega

theorem filter_walk (t : List Char) :
    ∀ (spans : List Span) (pos : Nat),
      (walk t spans pos).filter (fun s => s.highlighted) =
        spans.map fun s =>
          { content := slice t s.sb s.se, highlighted := true } := by
  intro spans
  induction spans with
  | nil =>
      intro pos
      by_cases h : pos < t.length <;> simp [walk, h, List.filter]
  | cons s rest ih =>
      intro pos
      by_cases h : pos < s.sb <;>
        simp [walk, h, List.filter_append, List.filter, ih s.se]

theorem collect_bounds {t : List Char} {anns : List Ann}
    {codes : List String} :
    ∀ s ∈ collectSpans t anns codes, s.sb < s.se ∧ s.se ≤ t.length := by
  intro s hs
  rw [collectSpans, List.mem_filterMap] at hs
  obtain ⟨a, _, hfa⟩ := hs
  rw [spanOf] at hfa
  split at hfa
  · split at hfa
    · rename_i hcond
      obtain ⟨hb0, hblen, hbe, helen⟩ := hcond
      cases hfa
      constructor <;> simp <;> omega
    · cases hfa
  · cases hfa

theorem chain_of_sorted (len : Nat) :
    ∀ (l : List Span) (pos : Nat), List.Sorted spanLE l →
      l.Pairwise disjSpans →
      (∀ s ∈ l, s.sb < s.se ∧ s.se ≤ len) →
      (∀ s ∈ l, pos ≤ s.sb) →
      chainFrom len pos l := by
  intro l
  induction l with
  | nil => intro pos _ _ _ _; trivial
  | cons s rest ih =>
      intro pos hsort hdisj hval hpos
      have hmem : s ∈ s :: rest := List.mem_cons_self s rest
      refine ⟨hpos s hmem, (hval s hmem).1, (hval s hmem).2, ?_⟩
      apply ih s.se hsort.of_cons (List.Pairwise.of_cons hdisj)
      · intro u hu
        exact hval u (List.mem_cons_of_mem s hu)
      · intro u hu
        have hle : spanLE s u := List.rel_of_sorted_cons hsort u hu
        have hd : disjSpans s u := List.rel_of_pairwise_cons hdisj hu
        have hvu := hval u (List.mem_cons_of_mem s hu)
        rcases hd with hd | hd
        · exact hd
        · exact absurd hle (by simp [spanLE]; omega)

theorem filter_cons_sb (b : Nat) (x : Span) (l : List Span) :
    List.filter (fun s => s.sb == b) (x :: l) =
      if x.sb = b then x :: List.filter (fun s => s.sb == b) l
      else List.filter (fun s => s.sb == b) l := by
  by_cases hx : x.sb = b <;> simp [List.filter_cons, hx]

theorem filter_orderedInsert (x : Span) (b : Nat) :
    ∀ l : List Span,
      (List.orderedInsert spanLE x l).filter (fun s => s.sb == b) =
        if x.sb = b then x :: l.filter (fun s => s.sb == b)
        else l.filter (fun s => s.sb == b) := by
  intro l
  induction l with
  | nil =>
      show List.filter _ [x] = _
      rw [filter_cons_sb]
  | cons y ys ih =>
      by_cases h : spanLE x y
      · rw [List.orderedInsert_of_le _ _ h, filter_cons_sb, filter_cons_sb]
      · have hins : List.orderedInsert spanLE x (y :: ys) =
            y :: List.orderedInsert spanLE x ys := by
          simp [List.orderedInsert, h]
        rw [hins, filter_cons_sb, ih, filter_cons_sb]
        simp only [spanLE, not_le] at h
        by_cases hx : x.sb = b
        · have hy : ¬ y.sb = b := by omega
          simp [hx, hy]
        · by_cases hy : y.sb = b <;> simp [hx, hy]

theorem filter_sortSpans (b : Nat) :
    ∀ l : List Span,
      (sortSpans l).filter (fun s => s.sb == b) =
        l.filter (fun s => s.sb == b) := by
  intro l
  induction l with
  | nil => rfl
  | cons x xs ih =>
      show (List.orderedInsert spanLE x (sortSpans xs)).filter _ = _
      rw [filter_orderedInsert, ih, filter_cons_sb]

theorem spanOf_none_of_bad {t : List Char} {codes : List String} {a : Ann}
    (h : badPos t a = true) : spanOf t codes a = none := by
  rw [spanOf]
  simp only [badPos, Bool.or_eq_true, decide_eq_true_eq] at h
  split
  · rw [if_neg]
    intro hcond
    obtain ⟨h1, h2, h3, h4⟩ := hcond
    omega
  · rfl

theorem collectSpans_filter_bad (t : List Char) (codes : List String) :
    ∀ anns : List Ann,
      collectSpans t (anns.filter fun a => !(badPos t a)) codes =
        collectSpans t anns codes := by
  intro anns
  induction anns with
  | nil => rfl
  | cons a rest ih =>
      by_cases h : badPos t a = true
      · simp only [collectSpans, List.filter_cons, h, Bool.not_true,
          List.filterMap_cons, spanOf_none_of_bad h] at ih ⊢
        exact ih
      · have h' : badPos t a = false := by
          cases hb : badPos t a
          · rfl
          · exact absurd hb h
        show List.filterMap _ (List.filter _ (a :: rest)) =
          List.filterMap _ (a :: rest)
        rw [List.filter_cons, if_pos (by simp [h'])]
        cases hsp : spanOf t codes a
        · rw [List.filterMap_cons_none hsp, List.filterMap_cons_none hsp]
          exact ih
        · rw [List.filterMap_cons_some hsp, List.filterMap_cons_some hsp]
          exact congrArg _ ih

/-! Invariant of the grouping fold: after processing a list of tagged
entries, the group codes are distinct, a code has a group exactly when it
occurs among the processed entries, and each group holds exactly the
processed entries with its code, in order, with metadata taken from the
first of them. -/

def groupsInv (processed : List (Nat × Ann)) (gs : List Group) : Prop :=
  ((gs.map fun g => g.code).Nodup) ∧
  (∀ c : String, c ∈ gs.map (fun g => g.code) ↔ ∃ p ∈ processed, keyOf p = c) ∧
  (∀ g ∈ gs, ∃ p rest,
    processed.filter (fun q => keyOf q == g.code) = p :: rest ∧
    g.instances = p :: rest ∧
    g.codeSystem = p.2.codeSystem.getD "" ∧
    g.descr = p.2.descr.getD "")

theorem filter_key_nil {c : String} :
    ∀ (l : List (Nat × Ann)), (∀ p ∈ l, ¬ keyOf p = c) →
      l.filter (fun q => keyOf q == c) = [] := by
  intro l h
  apply List.filter_eq_nil_iff.mpr
  intro p hp
  simpa using h p hp

theorem groupsInv_step {processed : List (Nat × Ann)} {gs : List Group}
    (h : groupsInv processed gs) (i : Nat) (a : Ann) :
    groupsInv (processed ++ [(i, a)]) (addInst gs i a) := by
  obtain ⟨hnd, hmem, hins⟩ := h
  by_cases hany : gs.any (fun g => g.code = a.code.getD "") = true
  · rw [addInst, if_pos hany]
    have hcodes : ((gs.map fun g =>
        if g.code = a.code.getD "" then
          { g with instances := g.instances ++ [(i, a)] }
        else g).map fun g => g.code) = gs.map fun g => g.code := by
      rw [List.map_map]
      apply List.map_congr_left
      intro g _
      by_cases hg : g.code = a.code.getD "" <;> simp [hg]
    refine ⟨by rw [hcodes]; exact hnd, ?_, ?_⟩
    · intro c
      rw [hcodes]
      constructor
      · intro hc
        obtain ⟨p, hp, hkp⟩ := (hmem c).mp hc
        exact ⟨p, List.mem_append_left _ hp, hkp⟩
      · rintro ⟨p, hp, hkp⟩
        rcases List.mem_append.mp hp with hp | hp
        · exact (hmem c).mpr ⟨p, hp, hkp⟩
        · have hpa : p = (i, a) := by simpa using hp
          subst hpa
          obtain ⟨g, hg, hgc⟩ := List.any_eq_true.mp hany
          have hgc' : g.code = a.code.getD "" := by simpa using hgc
          have : g.code = c := by
            rw [hgc']
            exact hkp
          exact this ▸ List.mem_map_of_mem _ hg
    · intro g' hg'
      obtain ⟨g, hg, rfl⟩ := List.mem_map.mp hg'
      by_cases hgc : g.code = a.code.getD ""
      · obtain ⟨p, rest, hfilt, hinst, hcs, hds⟩ := hins g hg
        rw [if_pos hgc]
        have hcode : ({ g with instances := g.instances ++ [(i, a)] } :
            Group).code = g.code := rfl
        have hinst2 : ({ g with instances := g.instances ++ [(i, a)] } :
            Group).instances = g.instances ++ [(i, a)] := rfl
        refine ⟨p, rest ++ [(i, a)], ?_, ?_, hcs, hds⟩
        · rw [hcode, List.filter_append, hfilt]
          have h2 : List.filter (fun q => keyOf q == g.code) [(i, a)] =
              [(i, a)] := by simp [keyOf, hgc]
          rw [h2, List.cons_append]
        · rw [hinst2, hinst, List.cons_append]
      · obtain ⟨p, rest, hfilt, hinst, hcs, hds⟩ := hins g hg
        rw [if_neg hgc]
        refine ⟨p, rest, ?_, hinst, hcs, hds⟩
        rw [List.filter_append, hfilt]
        have hne : ¬ a.code.getD "" = g.code := fun hc => hgc hc.symm
        have h2 : List.filter (fun q => keyOf q == g.code) [(i, a)] =
            [] := by simp [keyOf, hne]
        rw [h2, List.append_nil]
  · rw [addInst, if_neg hany]
    have hnotin : ∀ g ∈ gs, ¬ g.code = a.code.getD "" := by
      intro g hg hc
      exact hany (List.any_eq_true.mpr ⟨g, hg, by simp [hc]⟩)
    refine ⟨?_, ?_, ?_⟩
    · rw [List.map_append]
      refine hnd.append (List.nodup_singleton _) ?_
      intro x hx1 hx2
      obtain ⟨g, hg, rfl⟩ := List.mem_map.mp hx1
      have : g.code = a.code.getD "" := by simpa using hx2
      exact hnotin g hg this
    · intro c
      rw [List.map_append]
      constructor
      · intro hc
        rcases List.mem_append.mp hc with hc | hc
        · obtain ⟨p, hp, hkp⟩ := (hmem c).mp hc
          exact ⟨p, List.mem_append_left _ hp, hkp⟩
        · have hceq : c = a.code.getD "" := by simpa using hc
          exact ⟨(i, a), List.mem_append_right _ (by simp),
            by simp [keyOf, hceq]⟩
      · rintro ⟨p, hp, hkp⟩
        rcases List.mem_append.mp hp with hp | hp
        · exact List.mem_append_left _ ((hmem c).mpr ⟨p, hp, hkp⟩)
        · have hpa : p = (i, a) := by simpa using hp
          subst hpa
          apply List.mem_append_right
          have : keyOf (i, a) = c := hkp
          simp [keyOf] at this
          simp [this]
    · intro g' hg'
      rcases List.mem_append.mp hg' with hg | hg
      · obtain ⟨p, rest, hfilt, hinst, hcs, hds⟩ := hins g' hg
        refine ⟨p, rest, ?_, hinst, hcs, hds⟩
        rw [List.filter_append, hfilt]
        have hne : ¬ a.code.getD "" = g'.code :=
          fun hc => hnotin g' hg hc.symm
        have h2 : List.filter (fun q => keyOf q == g'.code) [(i, a)] =
            [] := by simp [keyOf, hne]
        rw [h2, List.append_nil]
      · have hgn : g' = ⟨a.code.getD "", a.codeSystem.getD "",
            a.descr.getD "", [(i, a)]⟩ := by simpa using hg
        subst hgn
        refine ⟨(i, a), [], ?_, rfl, rfl, rfl⟩
        rw [List.filter_append]
        have h1 : processed.filter
            (fun q => keyOf q == a.code.getD "") = [] := by
          apply filter_key_nil
          intro p hp hkp
          have : a.code.getD "" ∈ gs.map fun g => g.code :=
            (hmem _).mpr ⟨p, hp, hkp⟩
          obtain ⟨g, hg, hgc⟩ := List.mem_map.mp this
          exact hnotin g hg hgc
        have h2 : List.filter (fun q => keyOf q == a.code.getD "")
            [(i, a)] = [(i, a)] := by simp [keyOf]
        rw [h1, h2, List.nil_append]

theorem groupsInv_foldl :
    ∀ (l : List (Nat × Ann)) (processed : List (Nat × Ann)) (gs : List Group),
      groupsInv processed gs →
      groupsInv (processed ++ l)
        (l.foldl (fun gs p => addInst gs p.1 p.2) gs) := by
  intro l
  induction l with
  | nil =>
      intro processed gs h
      simpa using h
  | cons p rest ih =>
      intro processed gs h
      have h2 := ih (processed ++ [p]) _ (groupsInv_step h p.1 p.2)
      rw [List.append_assoc] at h2
      exact h2

theorem groupsInv_nil : groupsInv [] [] := by
  refine ⟨List.nodup_nil, ?_, ?_⟩
  · intro c
    simp
  · intro g hg
    simp at hg

theorem groupsInv_buildGroups (notes : List Note) :
    groupsInv (docAnns notes) (buildGroups notes) := by
  have h := groupsInv_foldl (docAnns notes) [] [] groupsInv_nil
  simpa [buildGroups] using h

theorem map_update_eq_of_notin (c : String) (i : Nat) (a : Ann) :
    ∀ gs : List Group, (∀ g ∈ gs, ¬ g.code = c) →
      (gs.map fun g =>
        if g.code = c then { g with instances := g.instances ++ [(i, a)] }
        else g) = gs := by
  intro gs
  induction gs with
  | nil => intro _; rfl
  | cons g rest ih =>
      intro h
      rw [List.map_cons, if_neg (h g (List.mem_cons_self g rest)),
        ih fun g' hg' => h g' (List.mem_cons_of_mem g hg')]

theorem sum_count_map_update (c : String) (i : Nat) (a : Ann) :
    ∀ gs : List Group, ((gs.map fun g => g.code).Nodup) →
      gs.any (fun g => g.code = c) = true →
      (((gs.map fun g =>
          if g.code = c then { g with instances := g.instances ++ [(i, a)] }
          else g).map Group.count).sum) =
        (gs.map Group.count).sum + 1 := by
  intro gs
  induction gs with
  | nil =>
      intro _ h
      simp at h
  | cons g rest ih =>
      intro hnd hany
      have hnd' : g.code ∉ (rest.map fun g => g.code) ∧
          (rest.map fun g => g.code).Nodup := by
        rw [List.map_cons, List.nodup_cons] at hnd
        exact hnd
      by_cases hg : g.code = c
      · have hnotin : ∀ g' ∈ rest, ¬ g'.code = c := by
          intro g' hg' hc
          exact hnd'.1 (by
            rw [← hg] at hc
            exact hc ▸ List.mem_map_of_mem _ hg')
        rw [List.map_cons, if_pos hg, map_update_eq_of_notin c i a rest hnotin]
        simp only [List.map_cons, List.sum_cons, Group.count,
          List.length_append, List.length_singleton]
        omega
      · have hrest : rest.any (fun g => g.code = c) = true := by
          have := List.any_eq_true.mp hany
          obtain ⟨g', hg', hgc⟩ := this
          rcases List.mem_cons.mp hg' with rfl | hg'
          · exact absurd (by simpa using hgc) hg
          · exact List.any_eq_true.mpr ⟨g', hg', hgc⟩
        rw [List.map_cons, if_neg hg]
        simp only [List.map_cons, List.sum_cons]
        rw [ih hnd'.2 hrest]
        omega

theorem count_addInst (gs : List Group) (i : Nat) (a : Ann)
    (hnd : (gs.map fun g => g.code).Nodup) :
    ((addInst gs i a).map Group.count).sum = (gs.map Group.count).sum + 1 := by
  by_cases hany : gs.any (fun g => g.code = a.code.getD "") = true
  · rw [addInst, if_pos hany]
    exact sum_count_map_update _ i a gs hnd hany
  · rw [addInst, if_neg hany]
    simp [Group.count]

theorem sum_count_foldl :
    ∀ (l : List (Nat × Ann)) (processed : List (Nat × Ann)) (gs : List Group),
      groupsInv processed gs →
      ((l.foldl (fun gs p => addInst gs p.1 p.2) gs).map Group.count).sum =
        (gs.map Group.count).sum + l.length := by
  intro l
  induction l with
  | nil =>
      intro processed gs _
      simp
  | cons p rest ih =>
      intro processed gs h
      have h1 := groupsInv_step h p.1 p.2
      have h2 := ih (processed ++ [p]) _ h1
      rw [List.foldl_cons, h2, count_addInst gs p.1 p.2 h.1]
      simp only [List.length_cons]
      omega

theorem sum_count_buildGroups (notes : List Note) :
    ((buildGroups notes).map Group.count).sum = (docAnns notes).length := by
  have h := sum_count_foldl (docAnns notes) [] [] groupsInv_nil
  simpa [buildGroups] using h

theorem length_docAnnsFrom :
    ∀ (notes : List Note) (i : Nat),
      (docAnnsFrom i notes).length =
        (notes.map fun n => (n.anns.getD []).length).sum := by
  intro notes
  induction notes with
  | nil => intro i; rfl
  | cons n rest ih =>
      intro i
      simp [docAnnsFrom, ih (i + 1)]

theorem contiguous_buildNotes :
    ∀ (notes : List Note) (idx off : Nat),
      contiguousFrom off (buildNotes notes idx off) := by
  intro notes
  induction notes with
  | nil => intro idx off; trivial
  | cons n rest ih =>
      intro idx off
      exact ⟨rfl, rfl, ih (idx + 1) (mkNoteData idx off n).end_offset⟩

theorem buildNotes_fill :
    ∀ (notes : List Note) (idx off : Nat),
      buildNotes (fillNotesFrom idx notes) idx off = buildNotes notes idx off := by
  intro notes
  induction notes with
  | nil => intro idx off; rfl
  | cons n rest ih =>
      intro idx off
      have hmk : mkNoteData idx off (fillNote idx n) = mkNoteData idx off n := by
        simp [mkNoteData, fillNote]
      show mkNoteData idx off (fillNote idx n) ::
          buildNotes (fillNotesFrom (idx + 1) rest) (idx + 1)
            (mkNoteData idx off (fillNote idx n)).end_offset = _
      rw [hmk, ih (idx + 1)]
      rfl

theorem docAnnsFrom_fill :
    ∀ (notes : List Note) (i : Nat),
      docAnnsFrom i (fillNotesFrom i notes) = docAnnsFrom i notes := by
  intro notes
  induction notes with
  | nil => intro i; rfl
  | cons n rest ih =>
      intro i
      show ((fillNote i n).anns.getD []).map (fun a => (i, a)) ++
          docAnnsFrom (i + 1) (fillNotesFrom (i + 1) rest) = _
      rw [ih (i + 1)]
      rfl

theorem mkNoteData_fillAnns (idx off : Nat) (n : Note) :
    mkNoteData idx off (fillAnnsNote n) =
      fillNoteDataAnns (mkNoteData idx off n) := rfl

theorem buildNotes_fillAnns :
    ∀ (notes : List Note) (idx off : Nat),
      buildNotes (notes.map fillAnnsNote) idx off =
        (buildNotes notes idx off).map fillNoteDataAnns := by
  intro notes
  induction notes with
  | nil => intro idx off; rfl
  | cons n rest ih =>
      intro idx off
      show mkNoteData idx off (fillAnnsNote n) ::
          buildNotes (rest.map fillAnnsNote) (idx + 1)
            (mkNoteData idx off (fillAnnsNote n)).end_offset = _
      rw [mkNoteData_fillAnns, ih (idx + 1)]
      rfl

theorem docAnnsFrom_fillAnns :
    ∀ (notes : List Note) (i : Nat),
      docAnnsFrom i (notes.map fillAnnsNote) =
        (docAnnsFrom i notes).map fun p => (p.1, fillAnnStrings p.2) := by
  intro notes
  induction notes with
  | nil => intro i; rfl
  | cons n rest ih =>
      intro i
      show ((fillAnnsNote n).anns.getD []).map (fun a => (i, a)) ++
          docAnnsFrom (i + 1) (rest.map fillAnnsNote) = _
      rw [ih (i + 1)]
      show ((n.anns.getD []).map fillAnnStrings).map (fun a => (i, a)) ++ _ = _
      rw [List.map_map, docAnnsFrom, List.map_append, List.map_map]
      rfl

theorem addInst_fillAnns (gs : List Group) (i : Nat) (a : Ann) :
    addInst (gs.map fillGroupInsts) i (fillAnnStrings a) =
      (addInst gs i a).map fillGroupInsts := by
  have hany : ((gs.map fillGroupInsts).any
      fun g => g.code = (fillAnnStrings a).code.getD "") =
      gs.any fun g => g.code = a.code.getD "" := by
    rw [List.any_map]
    rfl
  by_cases h : gs.any (fun g => g.code = a.code.getD "") = true
  · rw [addInst, addInst, hany, if_pos h, if_pos h, List.map_map,
      List.map_map]
    apply List.map_congr_left
    intro g _
    by_cases hg : g.code = a.code.getD ""
    · simp [Function.comp, fillGroupInsts, fillAnnStrings, hg]
    · simp [Function.comp, fillGroupInsts, fillAnnStrings, hg]
  · rw [addInst, addInst, hany, if_neg h, if_neg h, List.map_append]
    rfl

theorem foldl_addInst_fillAnns :
    ∀ (l : List (Nat × Ann)) (gs : List Group),
      ((l.map fun p => (p.1, fillAnnStrings p.2)).foldl
          (fun gs p => addInst gs p.1 p.2) (gs.map fillGroupInsts)) =
        (l.foldl (fun gs p => addInst gs p.1 p.2) gs).map fillGroupInsts := by
  intro l
  induction l with
  | nil => intro gs; rfl
  | cons p rest ih =>
      intro gs
      show (rest.map fun p => (p.1, fillAnnStrings p.2)).foldl _
          (addInst (gs.map fillGroupInsts) p.1 (fillAnnStrings p.2)) = _
      rw [addInst_fillAnns, ih (addInst gs p.1 p.2)]
      rfl

theorem buildGroups_fillAnns (notes : List Note) :
    buildGroups (notes.map fillAnnsNote) =
      (buildGroups notes).map fillGroupInsts := by
  rw [buildGroups, buildGroups, docAnns, docAnns, docAnnsFrom_fillAnns]
  exact foldl_addInst_fillAnns (docAnnsFrom 0 notes) []

theorem sort_fillAnns (gs : List Group) :
    List.insertionSort groupLE (gs.map fillGroupInsts) =
      (List.insertionSort groupLE gs).map fillGroupInsts :=
  (List.map_insertionSort groupLE groupLE fillGroupInsts gs
    fun _ _ _ _ => Iff.rfl).symm

theorem spanOf_fillOffsets (t : List Char) (codes : List String) (a : Ann) :
    spanOf t codes (fillAnnOffsets a) = spanOf t codes a := rfl

theorem collectSpans_fillOffsets (t : List Char) (codes : List String)
    (anns : List Ann) :
    collectSpans t (anns.map fillAnnOffsets) codes =
      collectSpans t anns codes := by
  rw [collectSpans, collectSpans, List.filterMap_map]
  have h : spanOf t codes ∘ fillAnnOffsets = spanOf t codes :=
    funext fun a => spanOf_fillOffsets t codes a
  rw [h]

theorem spanOf_code_none {t : List Char} {codes : List String} {a : Ann}
    (h : a.code = none) : spanOf t codes a = none := by
  simp [spanOf, codeActive, h]

theorem collectSpans_filter_someCode (t : List Char) (codes : List String) :
    ∀ anns : List Ann,
      collectSpans t (anns.filter fun a => a.code.isSome) codes =
        collectSpans t anns codes := by
  intro anns
  induction anns with
  | nil => rfl
  | cons a rest ih =>
      by_cases h : a.code.isSome = true
      · show List.filterMap _ (List.filter _ (a :: rest)) =
          List.filterMap _ (a :: rest)
        rw [List.filter_cons, if_pos (by simp [h])]
        cases hsp : spanOf t codes a
        · rw [List.filterMap_cons_none hsp, List.filterMap_cons_none hsp]
          exact ih
        · rw [List.filterMap_cons_some hsp, List.filterMap_cons_some hsp]
          exact congrArg _ ih
      · have hnone : a.code = none := by
          cases hc : a.code
          · rfl
          · rw [hc] at h
            exact absurd rfl h
        show List.filterMap _ (List.filter _ (a :: rest)) =
          List.filterMap _ (a :: rest)
        rw [List.filter_cons, if_neg (by simp [h]),
          List.filterMap_cons_none (spanOf_code_none hnone)]
        exact ih

theorem isEmpty_false_of_ne_nil {l : List String} (h : l ≠ []) :
    l.isEmpty = false := by
  cases l with
  | nil => exact absurd rfl h
  | cons a t => rfl

/-! The claims. -/

/-- C5: for every text and annotation list, if activeCodes is empty then
render returns exactly one segment, unhighlighted, whose content is the
full text, without invoking the span logic. -/
theorem C5_empty_selection (text : List Char) (anns : List Ann) :
    render text anns [] = [{ content := text, highlighted := false }] := rfl

/-- C9: the surviving spans are sorted by begin ascending with a stable
sort: the sorted sequence is sorted under the begin-key order, and for each
begin value b the subsequence of spans starting at b is exactly the
subsequence of the (input-ordered) filtered span list starting at b, so
spans with equal begin keep their relative input order. -/
theorem C9_stable_sort (text : List Char) (anns : List Ann)
    (activeCodes : List String) (b : Nat) :
    List.Sorted spanLE (sortSpans (collectSpans text anns activeCodes)) ∧
    (sortSpans (collectSpans text anns activeCodes)).filter
        (fun s => s.sb == b) =
      (collectSpans text anns activeCodes).filter (fun s => s.sb == b) :=
  ⟨List.sorted_insertionSort spanLE _, filter_sortSpans b _⟩

/-- C3: an annotation with begin >= end, begin < 0, begin >= len(text) or
end > len(text) is dropped by render: removing all such entries leaves the
output unchanged (so they are never clamped and never rendered), and every
surviving span lies strictly inside the text. -/
theorem C3_invalid_dropped (text : List Char) (anns : List Ann)
    (activeCodes : List String) :
    render text anns activeCodes =
      render text (anns.filter fun a => !(badPos text a)) activeCodes ∧
    ∀ s ∈ collectSpans text anns activeCodes,
      s.sb < s.se ∧ s.se ≤ text.length := by
  constructor
  · by_cases hie : activeCodes.isEmpty = true
    · simp [render, hie]
    · have hie' : activeCodes.isEmpty = false := by
        cases hb : activeCodes.isEmpty
        · rfl
        · exact absurd hb hie
      simp only [render, hie', Bool.false_eq_true, if_false]
      rw [highlightText, highlightText, collectSpans_filter_bad]
  · exact fun s hs => collect_bounds s hs

/-- C3 witness: the claim applied to a concrete text, a concrete valid
annotation and a concrete surviving span. -/
theorem C3_witness :
    render ovText [ovAnn1] ["A"] =
      render ovText ([ovAnn1].filter fun a => !(badPos ovText a)) ["A"] ∧
    ((⟨0, 4, some "A"⟩ : Span).sb < (⟨0, 4, some "A"⟩ : Span).se ∧
      (⟨0, 4, some "A"⟩ : Span).se ≤ ovText.length) :=
  ⟨(C3_invalid_dropped ovText [ovAnn1] ["A"]).1,
   (C3_invalid_dropped ovText [ovAnn1] ["A"]).2 ⟨0, 4, some "A"⟩ (by decide)⟩

/-- C2: the render walk does not detect or special-case a surviving span
that begins before lastPos: every surviving span, overlapping or not,
emits text[span.begin:span.end] as its own highlighted segment (first
conjunct), and on a concrete overlapping input the concatenated output
repeats characters of the text (the character d occurs twice in the output
but once in the text). -/
theorem C2_overlap_passthrough :
    (∀ (text : List Char) (anns : List Ann) (activeCodes : List String),
        activeCodes ≠ [] →
        (render text anns activeCodes).filter (fun s => s.highlighted) =
          (sortSpans (collectSpans text anns activeCodes)).map fun s =>
            { content := slice text s.sb s.se, highlighted := true }) ∧
    (concatSegs (render ovText [ovAnn1, ovAnn2] ["A"])).count 'd' = 2 ∧
    ovText.count 'd' = 1 := by
  refine ⟨?_, by decide, by decide⟩
  intro t anns codes hne
  simp only [render, isEmpty_false_of_ne_nil hne, Bool.false_eq_true,
    if_false]
  rw [highlightText]
  exact filter_walk t _ 0

/-- C2 witness: the pass-through law applied at the concrete overlapping
input. -/
theorem C2_witness :
    (render ovText [ovAnn1, ovAnn2] ["A"]).filter (fun s => s.highlighted) =
      (sortSpans (collectSpans ovText [ovAnn1, ovAnn2] ["A"])).map fun s =>
        { content := slice ovText s.sb s.se, highlighted := true } :=
  C2_overlap_passthrough.1 ovText [ovAnn1, ovAnn2] ["A"] (by decide)

/-- C1: with a non-empty activeCodes set, when the filtered offset-valid
spans are pairwise non-overlapping, the concatenation of all rendered
segment contents is exactly the text and the number of segments is at most
twice the number of surviving spans plus one. -/
theorem C1_render_roundtrip (text : List Char) (anns : List Ann)
    (activeCodes : List String) (hne : activeCodes ≠ [])
    (hdisj : (collectSpans text anns activeCodes).Pairwise disjSpans) :
    concatSegs (render text anns activeCodes) = text ∧
    (render text anns activeCodes).length ≤
      2 * (collectSpans text anns activeCodes).length + 1 := by
  simp only [render, isEmpty_false_of_ne_nil hne, Bool.false_eq_true,
    if_false, highlightText]
  have hperm :=
    List.perm_insertionSort spanLE (collectSpans text anns activeCodes)
  have hsorted :=
    List.sorted_insertionSort spanLE (collectSpans text anns activeCodes)
  have hsym : Symmetric disjSpans := by
    intro u v huv
    rcases huv with h | h
    · exact Or.inr h
    · exact Or.inl h
  have hdisj' :
      (sortSpans (collectSpans text anns activeCodes)).Pairwise disjSpans :=
    (hperm.pairwise_iff fun h => hsym h).mpr hdisj
  have hval : ∀ s ∈ sortSpans (collectSpans text anns activeCodes),
      s.sb < s.se ∧ s.se ≤ text.length := by
    intro s hs
    exact collect_bounds s (hperm.mem_iff.mp hs)
  have hchain := chain_of_sorted text.length
    (sortSpans (collectSpans text anns activeCodes)) 0 hsorted hdisj' hval
    (fun s _ => Nat.zero_le _)
  constructor
  · have h := concat_walk text _ 0 hchain
    rw [List.drop_zero] at h
    exact h
  · have hlen := length_walk text
      (sortSpans (collectSpans text anns activeCodes)) 0
    have heq : (sortSpans (collectSpans text anns activeCodes)).length =
        (collectSpans text anns activeCodes).length := hperm.length_eq
    omega

/-- C1 witness: the round-trip law at a concrete text with two disjoint
surviving spans. -/
theorem C1_witness :
    concatSegs (render ovText [w1ann1, w1ann2] ["A"]) = ovText ∧
    (render ovText [w1ann1, w1ann2] ["A"]).length ≤
      2 * (collectSpans ovText [w1ann1, w1ann2] ["A"]).length + 1 :=
  C1_render_roundtrip ovText [w1ann1, w1ann2] ["A"] (by decide) (by decide)

/-- C6 counterexample: on the exact scenario input of the spec (text of
25 characters, entry with begin 17 and end 25) render returns two
segments, The patient has d unhighlighted and iabetes. highlighted, and
not the three segments the claim states. -/
theorem C6_counterexample :
    render c6text [c6ann] ["E11.9"] =
      [{ content := "The patient has d".toList, highlighted := false },
       { content := "iabetes.".toList, highlighted := true }] ∧
    render c6text [c6ann] ["E11.9"] ≠
      [{ content := "The patient has ".toList, highlighted := false },
       { content := "diabetes".toList, highlighted := true },
       { content := ".".toList, highlighted := false }] := by
  constructor
  · decide
  · decide

/-- C6 amended: with the offsets that actually cover the word diabetes
(begin 16, end 24) render returns exactly the three segments of the
scenario. -/
theorem C6_amended :
    render c6text [c6annFixed] ["E11.9"] =
      [{ content := "The patient has ".toList, highlighted := false },
       { content := "diabetes".toList, highlighted := true },
       { content := ".".toList, highlighted := false }] := by
  decide

/-- C10: the processed notes occupy contiguous offsets: the first note
starts at 0, each note ends at its start plus its text length, and each
subsequent note starts where the previous one ended. -/
theorem C10_contiguous_offsets (d : Document) :
    contiguousFrom 0 (build d).1 :=
  contiguous_buildNotes (d.notes.getD []) 0 0

/-- C4: for every document the groups come out sorted by code under the
lexicographic string order, strictly (so no ties), and the group counts
sum to the total number of annotation entries over all notes, with no
offset filtering. -/
theorem C4_sorted_and_total (d : Document) :
    (((build d).2.map fun g => g.code).Pairwise fun c1 c2 => c1 < c2) ∧
    ((build d).2.map Group.count).sum =
      ((d.notes.getD []).map fun n => (n.anns.getD []).length).sum := by
  have hperm := List.perm_insertionSort groupLE (buildGroups (d.notes.getD []))
  have hinv := groupsInv_buildGroups (d.notes.getD [])
  constructor
  · have hsorted : List.Sorted groupLE (build d).2 :=
      List.sorted_insertionSort groupLE _
    have hnd : ((build d).2.map fun g => g.code).Nodup :=
      ((hperm.map fun g => g.code).nodup_iff).mpr hinv.1
    have hne : (build d).2.Pairwise fun g1 g2 => g1.code ≠ g2.code :=
      List.pairwise_map.mp hnd
    rw [List.pairwise_map]
    exact (hsorted.and hne).imp fun h => lt_of_le_of_ne h.1 h.2
  · have h1 : ((build d).2.map Group.count).sum =
        ((buildGroups (d.notes.getD [])).map Group.count).sum :=
      (hperm.map Group.count).sum_eq
    rw [h1, sum_count_buildGroups, docAnns, length_docAnnsFrom]

/-- C7: for every document there is exactly one group per distinct code
string (the empty string key collecting the uncoded entries like any
other code), each group holds exactly the entries with its code in
document order, and its codeSystem and description come from the first
such entry, never re-validated against later ones. -/
theorem C7_one_group_per_code (d : Document) :
    (((build d).2.map fun g => g.code).Nodup) ∧
    (∀ c : String, c ∈ (build d).2.map (fun g => g.code) ↔
      ∃ p ∈ docAnns (d.notes.getD []), keyOf p = c) ∧
    (∀ g ∈ (build d).2, ∃ p rest,
      (docAnns (d.notes.getD [])).filter
          (fun q => keyOf q == g.code) = p :: rest ∧
      g.instances = p :: rest ∧
      g.codeSystem = p.2.codeSystem.getD "" ∧
      g.descr = p.2.descr.getD "") := by
  have hperm := List.perm_insertionSort groupLE (buildGroups (d.notes.getD []))
  have hinv := groupsInv_buildGroups (d.notes.getD [])
  refine ⟨((hperm.map fun g => g.code).nodup_iff).mpr hinv.1, ?_, ?_⟩
  · intro c
    have h := hinv.2.1 c
    rw [← (hperm.map fun g => g.code).mem_iff] at h
    exact h
  · intro g hg
    exact hinv.2.2 g (hperm.mem_iff.mp hg)

/-- C7 witness: the invariant applied to the concrete two-note document
whose code A00 occurs in both notes with different metadata: the group
keeps both instances in document order and the metadata of the first. -/
theorem C7_witness :
    ∃ p rest,
      (docAnns (w2doc.notes.getD [])).filter
          (fun q => keyOf q == w2gA.code) = p :: rest ∧
      w2gA.instances = p :: rest ∧
      w2gA.codeSystem = p.2.codeSystem.getD "" ∧
      w2gA.descr = p.2.descr.getD "" :=
  (C7_one_group_per_code w2doc).2.2 w2gA
    ((List.perm_insertionSort groupLE
      (buildGroups (w2doc.notes.getD []))).mem_iff.mpr (by decide))

/-- C8 counterexample: a note with a missing category field gets the
default string Unknown, which is neither an empty string nor an empty
list, so not every missing field is substituted with an
empty-string/empty-list default. -/
theorem C8_counterexample :
    ((build ⟨some [emptyNote]⟩).1.map fun nd => nd.category) = ["Unknown"] ∧
    "Unknown" ≠ "" := by
  constructor
  · rfl
  · decide

/-- C8 amended: build and render never fail on missing fields; each
missing field is read through its fixed default. First conjunct: filling
every missing note field with its default (note index for note_id,
Unknown for category, empty string or empty list for the rest) leaves
build unchanged. Second conjunct: filling the missing annotation string
fields (code, code system, description) with the empty string the
grouping reads them as changes nothing but the same filling inside the
stored annotation dicts: the group keys, metadata, counts, ordering and
note offsets are untouched. Third conjunct: the highlighter reads missing
begin and end offsets as 0, so filling them with 0 leaves render
unchanged. Fourth conjunct: an annotation with no code key matches no
selected code, so dropping all such entries leaves render unchanged. -/
theorem C8_amended_defaults :
    (∀ d : Document,
      build d = build ⟨some (fillNotesFrom 0 (d.notes.getD []))⟩) ∧
    (∀ d : Document,
      build ⟨some ((d.notes.getD []).map fillAnnsNote)⟩ =
        ((build d).1.map fillNoteDataAnns,
         (build d).2.map fillGroupInsts)) ∧
    (∀ (text : List Char) (anns : List Ann) (activeCodes : List String),
      render text (anns.map fillAnnOffsets) activeCodes =
        render text anns activeCodes) ∧
    (∀ (text : List Char) (anns : List Ann) (activeCodes : List String),
      render text (anns.filter fun a => a.code.isSome) activeCodes =
        render text anns activeCodes) := by
  refine ⟨?_, ?_, ?_, ?_⟩
  · intro d
    show processData (d.notes.getD []) =
      processData ((some (fillNotesFrom 0 (d.notes.getD []))).getD [])
    rw [Option.getD_some, processData, processData, buildGroups, buildGroups,
      docAnns, docAnns, buildNotes_fill, docAnnsFrom_fill]
  · intro d
    show processData ((d.notes.getD []).map fillAnnsNote) = _
    rw [processData, buildNotes_fillAnns, buildGroups_fillAnns,
      sort_fillAnns]
    rfl
  · intro text anns activeCodes
    by_cases h : activeCodes.isEmpty = true
    · simp only [render, if_pos h]
    · simp only [render, if_neg h, highlightText, collectSpans_fillOffsets]
  · intro text anns activeCodes
    by_cases h : activeCodes.isEmpty = true
    · simp only [render, if_pos h]
    · simp only [render, if_neg h, highlightText,
        collectSpans_filter_someCode]

end Elinker
